import Mathlib

/-!
Verification of the libre-lyre audiobook pipeline core.

The development shallowly embeds the processing core of the repository:

* `chunkTextStrictly` — the text chunker from `src/renderer/src/App.tsx`
  (local function `chunkTextStrictly` inside `generateAudiobook`).
  JS strings are modelled as `List Char`; indices and lengths are `Nat`.
  The backward-scan guards `i > position + maxChunkSize * 0.5` and
  `i > position + maxChunkSize * 0.7` are written with exact rational
  arithmetic as the equivalent integer comparisons
  `2*i > 2*position + maxChunkSize` and `10*i > 10*position + 7*maxChunkSize`.
* `createWavBuffer` / `concatenateAudioBuffers` — the WAV assembly from
  `src/main/index.ts`.  JS numbers (audio samples) are modelled as exact
  rationals `ℚ`; byte buffers as `List Nat` of byte values.
* `genLoop` / `generateAudiobookTrace` — the per-chunk translate/synthesize
  loop of `generateAudiobook`, recording the emitted progress events, the
  texts given to the synthesizer, and the calls made to the translator.
* `cropRenderedPage` — the per-page crop step of the `process-audiobook`
  handler, together with a model (from the spec) of the external image
  library's extract-region validation.
-/

namespace LibreLyre

/-- JS whitespace: the set matched by the regex `\s` and removed by
`String.prototype.trim` (ECMAScript WhiteSpace together with LineTerminator). -/
def isWS (c : Char) : Bool :=
  let n := c.toNat
  n == 0x20 || n == 0x09 || n == 0x0a || n == 0x0d || n == 0x0b || n == 0x0c ||
  n == 0xa0 || n == 0x1680 || (0x2000 ≤ n && n ≤ 0x200a) ||
  n == 0x2028 || n == 0x2029 || n == 0x202f || n == 0x205f || n == 0x3000 || n == 0xfeff

/-- The sentence-terminal characters of the regex `[.!?]`. -/
def isSentenceEnd (c : Char) : Bool :=
  c == '.' || c == '!' || c == '?'

/-- Removal of a trailing run of whitespace (the right half of JS
`String.prototype.trim`). -/
def trimRight : List Char → List Char
  | [] => []
  | c :: rest =>
    match trimRight rest with
    | [] => if isWS c then [] else [c]
    | r => c :: r

/-- JS `String.prototype.trim`: strip leading and trailing whitespace. -/
def trim (l : List Char) : List Char :=
  trimRight (l.dropWhile isWS)

/-- Length of the leading whitespace run of a list. -/
def wsRun : List Char → Nat
  | [] => 0
  | c :: rest => if isWS c then wsRun rest + 1 else 0

/-- The whitespace-skipping loop
`while (position < text.length && /\s/.test(text[position])) position++`. -/
def skipWS (text : List Char) (position : Nat) : Nat :=
  position + wsRun (text.drop position)

/-- The backward scan for a sentence boundary:
`for (let i = chunkEnd; i > position + maxChunkSize * 0.5; i--)` with body
`if (/[.!?]/.test(text[i]) && i < text.length - 1 && /\s/.test(text[i + 1])) { bestBreak = i + 1; break }`.
The argument of the recursion is the current loop index `i`; the guard
`i > position + maxChunkSize * 0.5` is the exact integer comparison
`2*i > 2*position + maxChunkSize`. -/
def scanSentence (text : List Char) (position maxChunkSize : Nat) : Nat → Option Nat
  | 0 => none
  | i + 1 =>
    if 2 * (i + 1) > 2 * position + maxChunkSize then
      if isSentenceEnd (text.getD (i + 1) ' ') && decide (i + 2 < text.length)
          && isWS (text.getD (i + 2) ' ') then
        some (i + 2)
      else
        scanSentence text position maxChunkSize i
    else
      none

/-- The backward scan for a word boundary:
`for (let i = chunkEnd; i > position + maxChunkSize * 0.7; i--)` with body
`if (/\s/.test(text[i])) { bestBreak = i; break }`.  The guard
`i > position + maxChunkSize * 0.7` is the exact integer comparison
`10*i > 10*position + 7*maxChunkSize`. -/
def scanWordBound (text : List Char) (position maxChunkSize : Nat) : Nat → Option Nat
  | 0 => none
  | i + 1 =>
    if 10 * (i + 1) > 10 * position + 7 * maxChunkSize then
      if isWS (text.getD (i + 1) ' ') then
        some (i + 1)
      else
        scanWordBound text position maxChunkSize i
    else
      none

/-- The break point selected for the window starting at `position`:
sentence boundary first, then word boundary, else a forced break at
`chunkEnd = position + maxChunkSize`.  Both scans start at `i = chunkEnd`. -/
def bestBreakAt (text : List Char) (maxChunkSize position : Nat) : Nat :=
  match scanSentence text position maxChunkSize (position + maxChunkSize) with
  | some b => b
  | none =>
    match scanWordBound text position maxChunkSize (position + maxChunkSize) with
    | some b => b
    | none => position + maxChunkSize

/-- The main `while (position < text.length)` loop of `chunkTextStrictly`,
with an explicit fuel counting loop-guard evaluations.  Each iteration either
pushes the remainder `text.substring(position)` and breaks (when
`chunkEnd >= text.length`), or pushes the trimmed window when non-empty and
advances `position` past the break point and any following whitespace. -/
def chunkAux (text : List Char) (maxChunkSize : Nat) : Nat → Nat → List (List Char)
  | 0, _ => []
  | fuel + 1, position =>
    if position < text.length then
      if text.length ≤ position + maxChunkSize then
        [text.drop position]
      else
        let bestBreak := bestBreakAt text maxChunkSize position
        let chunk := trim ((text.drop position).take (bestBreak - position))
        (if 0 < chunk.length then [chunk] else []) ++
          chunkAux text maxChunkSize fuel (skipWS text bestBreak)
    else
      []

/-- The function `chunkTextStrictly(text, maxChunkSize)` from `App.tsx`.  For
`maxChunkSize ≥ 1` the loop runs at most `text.length` times (each iteration
strictly advances `position`), so fuel `text.length + 1` is enough; this
sufficiency is proved below. -/
def chunkTextStrictly (text : List Char) (maxChunkSize : Nat) : List (List Char) :=
  chunkAux text maxChunkSize (text.length + 1) 0

/-! ### WAV assembly (`src/main/index.ts`)

Audio samples (JS numbers, read out of a `Float32Array`) are modelled as
exact rationals; the rounding performed by binary floating point is not
modelled.  A byte buffer is a `List Nat` of byte values. -/

/-- One element of the `audioData` array received by the
`concatenate-audio-buffers` IPC handler: `{ audio: number[]; sampling_rate: number }`. -/
structure AudioChunkData where
  audio : List ℚ
  sampling_rate : Nat

/-- Truncation toward zero, the conversion applied by the JS typed-array
element stores (`ToUint8` / `ToUint32`) to a non-integral number. -/
def truncTowardZero (q : ℚ) : Int :=
  if 0 ≤ q then ⌊q⌋ else -⌊-q⌋

/-- The two byte stores performed by `buffer.writeInt16LE(v, off)`:
`buf[off] = ToUint8(v)` and `buf[off+1] = ToUint8(ToUint32(v) >>> 8)`.
Both coercions first truncate `v` toward zero. -/
def int16leBytes (v : ℚ) : List Nat :=
  let t := truncTowardZero v
  [(t % 256).toNat, (t % 4294967296).toNat / 256 % 256]

/-- The clamp `Math.max(-1, Math.min(1, x))`. -/
def clampSample (x : ℚ) : ℚ :=
  max (-1) (min 1 x)

/-- The per-sample body of the conversion loop in `createWavBuffer`:
`const sample = Math.max(-1, Math.min(1, audioData[i])); buffer.writeInt16LE(sample * 0x7fff, 44 + i * 2)`. -/
def writeSample (x : ℚ) : List Nat :=
  int16leBytes (clampSample x * 32767)

/-- The byte sequence written by `buffer.writeUInt16LE(v, off)` (for in-range `v`). -/
def u16le (v : Nat) : List Nat :=
  [v % 256, v / 256 % 256]

/-- The byte sequence written by `buffer.writeUInt32LE(v, off)` (for in-range `v`). -/
def u32le (v : Nat) : List Nat :=
  [v % 256, v / 256 % 256, v / 65536 % 256, v / 16777216 % 256]

/-- The bytes of an ASCII marker written by `buffer.write(s, off)`. -/
def asciiBytes (s : String) : List Nat :=
  s.toList.map Char.toNat

/-- The byte content laid down by `createWavBuffer(audioData, sampleRate)`
when every write is in range: a 44-byte canonical PCM WAV header followed by
the quantized samples. -/
def wavBytes (audioData : List ℚ) (sampleRate : Nat) : List Nat :=
  asciiBytes "RIFF" ++ u32le (36 + audioData.length * 2) ++
  asciiBytes "WAVE" ++ asciiBytes "fmt " ++
  u32le 16 ++ u16le 1 ++ u16le 1 ++ u32le sampleRate ++ u32le (sampleRate * 2) ++
  u16le 2 ++ u16le 16 ++ asciiBytes "data" ++ u32le (audioData.length * 2) ++
  audioData.flatMap writeSample

/-- The function `createWavBuffer(audioData, sampleRate)` from
`src/main/index.ts`.  Node's `buffer.writeUInt32LE` range-checks its value
and throws `ERR_OUT_OF_RANGE` above `2^32 - 1`; the four 32-bit values this
function writes are `36 + 2N` (offset 4), `sampleRate` (offset 24),
`sampleRate * 2` (the byte rate, offset 28) and `2N` (offset 40), so the
buffer is produced only when all four fit in 32 bits and the call throws
otherwise.  The 16-bit fields are the constants 1, 2 and 16, and the
`writeInt16LE` range check never fires because the clamped samples lie in
`[-32767, 32767]` (proved below). -/
def createWavBuffer (audioData : List ℚ) (sampleRate : Nat) : Except String (List Nat) :=
  if 36 + audioData.length * 2 < 4294967296 ∧ sampleRate < 4294967296 ∧
      sampleRate * 2 < 4294967296 ∧ audioData.length * 2 < 4294967296 then
    Except.ok (wavBytes audioData sampleRate)
  else
    Except.error "ERR_OUT_OF_RANGE"

/-- The `concatenate-audio-buffers` handler: with zero chunks it throws
`"No audio data provided"` (caught and returned as a failure, writing no
file); otherwise it concatenates all sample arrays in input order, uses
`audioData[0].sampling_rate` for the header, and writes the buffer built by
`createWavBuffer` — whose thrown range error is likewise caught and returned
as a failure.  The returned `Except` carries the bytes that get written. -/
def concatenateAudioBuffers (audioData : List AudioChunkData) : Except String (List Nat) :=
  if audioData.length = 0 then
    Except.error "No audio data provided"
  else
    let combinedAudio := audioData.flatMap AudioChunkData.audio
    let sampleRate := (audioData.headD ⟨[], 0⟩).sampling_rate
    createWavBuffer combinedAudio sampleRate

/-- Read back the little-endian 16-bit field at byte offset `off`. -/
def readU16 : List Nat → Nat → Nat
  | a :: b :: _, 0 => a + 256 * b
  | _ :: rest, n + 1 => readU16 rest n
  | _, _ => 0

/-- Read back the little-endian 32-bit field at byte offset `off`. -/
def readU32 : List Nat → Nat → Nat
  | a :: b :: c :: d :: _, 0 => a + 256 * b + 65536 * c + 16777216 * d
  | _ :: rest, n + 1 => readU32 rest n
  | _, _ => 0

/-- Decode two bytes as a little-endian signed 16-bit (two's-complement) value. -/
def decodeS16 : List Nat → Int
  | a :: b :: _ =>
    if a + 256 * b < 32768 then ((a + 256 * b : Nat) : Int)
    else ((a + 256 * b : Nat) : Int) - 65536
  | _ => 0

/-! ### The generateAudiobook per-chunk loop (`src/renderer/src/App.tsx`) -/

/-- The `SupportedLanguages` enumeration from `src/renderer/src/utils/languages.ts`. -/
inductive SupportedLanguages
  | English | Spanish | French | Hindi | Italian | Japanese | Portuguese | Chinese
deriving DecidableEq

/-- The `ProcessingState.status` union of `App.tsx`. -/
inductive Status
  | idle | cropping | ocr | translating | tts | complete | error
deriving DecidableEq

/-- What one run of the translate/synthesize loop produces, observationally:
the `setProcessing` events it emits, the texts handed to `tts.generate`,
and the chunk texts sent to `translateWithOllama`. -/
structure LoopOut (α : Type) where
  events : List (Status × ℚ)
  synthInputs : List α
  translatorCalls : List α

/-- The `for (let i = 0; i < textChunks.length; i++)` loop of
`generateAudiobook`.  `total` is `textChunks.length`.  When
`inputLanguage !== outputLanguage` the chunk is first translated (emitting a
`translating` event at `60 + (i / textChunks.length) * 15`); in both branches
exactly one element is pushed onto `translatedTextChunks`, so at the `tts`
emission `translatedTextChunks.length` equals `i + 1`, giving progress
`70 + (i / (i + 1)) * 15`.  Chunk texts are an arbitrary type `α`. -/
def genLoop {α : Type} (inputLanguage outputLanguage : SupportedLanguages)
    (translateFn : SupportedLanguages → SupportedLanguages → α → α) (total : Nat) :
    List α → Nat → LoopOut α
  | [], _ => ⟨[], [], []⟩
  | c :: rest, i =>
    let translated := if inputLanguage ≠ outputLanguage then
        translateFn inputLanguage outputLanguage c
      else c
    let here : List (Status × ℚ) :=
      (if inputLanguage ≠ outputLanguage then
        [(Status.translating, 60 + ((i : ℚ) / (total : ℚ)) * 15)]
      else []) ++
      [(Status.tts, 70 + ((i : ℚ) / ((i : ℚ) + 1)) * 15)]
    let tail := genLoop inputLanguage outputLanguage translateFn total rest (i + 1)
    ⟨here ++ tail.events, translated :: tail.synthInputs,
      (if inputLanguage ≠ outputLanguage then [c] else []) ++ tail.translatorCalls⟩

/-- The full sequence of `setProcessing` events of a successful
`generateAudiobook` run: `(cropping, 10)` before the IPC call, `(tts, 60)`
on OCR success, the loop events, `(tts, 95)` before concatenation and
`(complete, 100)` at the end. -/
def generateAudiobookTrace {α : Type} (inputLanguage outputLanguage : SupportedLanguages)
    (translateFn : SupportedLanguages → SupportedLanguages → α → α) (chunks : List α) :
    List (Status × ℚ) :=
  (Status.cropping, 10) :: (Status.tts, 60) ::
    ((genLoop inputLanguage outputLanguage translateFn chunks.length chunks 0).events ++
      [(Status.tts, 95), (Status.complete, 100)])

/-- The texts handed to the synthesizer (`tts.generate`) by a successful run. -/
def synthesizerInputs {α : Type} (inputLanguage outputLanguage : SupportedLanguages)
    (translateFn : SupportedLanguages → SupportedLanguages → α → α) (chunks : List α) :
    List α :=
  (genLoop inputLanguage outputLanguage translateFn chunks.length chunks 0).synthInputs

/-- The chunk texts sent to the external translator by a successful run. -/
def translatorCallList {α : Type} (inputLanguage outputLanguage : SupportedLanguages)
    (translateFn : SupportedLanguages → SupportedLanguages → α → α) (chunks : List α) :
    List α :=
  (genLoop inputLanguage outputLanguage translateFn chunks.length chunks 0).translatorCalls

/-! ### Page crop (`process-audiobook` handler, `src/main/index.ts`) -/

/-- Modelled from the spec: the parameter validation of the external image
library's `extract` (the PageRenderer/Cropper collaborator, not part of this
repository) — an extract region must have positive width and height and lie
inside the image, otherwise the call fails instead of silently producing an
empty or negative crop. -/
def sharpExtractOk (imageWidth imageHeight left top width height : Int) : Bool :=
  0 ≤ left && 0 ≤ top && 0 < width && 0 < height &&
  left + width ≤ imageWidth && top + height ≤ imageHeight

/-- The crop step of the `process-audiobook` handler for one rendered page:
`topMarginPx = cropSettings.top * 2`, `bottomMarginPx = cropSettings.bottom * 2`
(the page is rendered at `viewportScale: 2`), and
`sharp(img).extract({ left: 0, top: topMarginPx, width: Math.floor(w), height: Math.floor(h - topMarginPx - bottomMarginPx) })`.
Margins and pixel dimensions are integers, so `Math.floor` is the identity.
A failed extract is caught by the handler and returned as an error result. -/
def cropRenderedPage (cropTop cropBottom imageWidth imageHeight : Nat) :
    Except String Unit :=
  let topMarginPx : Int := (cropTop : Int) * 2
  let bottomMarginPx : Int := (cropBottom : Int) * 2
  let height : Int := (imageHeight : Int) - topMarginPx - bottomMarginPx
  if sharpExtractOk (imageWidth : Int) (imageHeight : Int) 0 topMarginPx (imageWidth : Int) height then
    Except.ok ()
  else
    Except.error "InvalidCropRegion"

/-! ### Helper notions for stating the chunker claims -/

/-- The non-whitespace characters of a string, in order. -/
def nonWS (l : List Char) : List Char :=
  l.filter (fun c => !isWS c)

/-- Re-joining a chunk sequence with single spaces. -/
def joinSpace : List (List Char) → List Char
  | [] => []
  | [c] => c
  | c :: rest => c ++ ' ' :: joinSpace rest

/-! ### Lemmas about trimming and whitespace -/

theorem nonWS_append (l₁ l₂ : List Char) : nonWS (l₁ ++ l₂) = nonWS l₁ ++ nonWS l₂ := by
  simp [nonWS, List.filter_append]

theorem nonWS_dropWhile (l : List Char) : nonWS (l.dropWhile isWS) = nonWS l := by
  induction l with
  | nil => rfl
  | cons c rest ih =>
    by_cases h : isWS c = true
    · simpa [List.dropWhile, h, nonWS] using ih
    · simp [List.dropWhile, h]

theorem nonWS_cons (c : Char) (l : List Char) :
    nonWS (c :: l) = (if isWS c then [] else [c]) ++ nonWS l := by
  by_cases h : isWS c = true <;> simp [nonWS, List.filter_cons, h]

theorem nonWS_trimRight (l : List Char) : nonWS (trimRight l) = nonWS l := by
  induction l with
  | nil => rfl
  | cons c rest ih =>
    rw [trimRight]
    rcases hr : trimRight rest with _ | ⟨x, xs⟩
    · rw [hr] at ih
      have hrest : nonWS rest = [] := ih.symm
      by_cases h : isWS c = true
      · rw [if_pos h]
        simp only [nonWS_cons, hrest, if_pos h, List.append_nil]
        simp [nonWS]
      · rw [if_neg h]
        simp only [nonWS_cons, hrest, if_neg h, List.append_nil]
        simp [nonWS]
    · rw [hr] at ih
      simp only [nonWS_cons] at ih ⊢
      rw [ih]

theorem nonWS_trim (l : List Char) : nonWS (trim l) = nonWS l := by
  rw [trim, nonWS_trimRight, nonWS_dropWhile]

theorem trimRight_length_le (l : List Char) : (trimRight l).length ≤ l.length := by
  induction l with
  | nil => simp [trimRight]
  | cons c rest ih =>
    rw [trimRight]
    rcases hr : trimRight rest with _ | ⟨x, xs⟩
    · by_cases h : isWS c = true <;> simp [h, List.length_cons]
    · rw [hr] at ih
      simp only [List.length_cons] at ih ⊢
      omega

theorem dropWhile_length_le (p : Char → Bool) (l : List Char) :
    (l.dropWhile p).length ≤ l.length := by
  induction l with
  | nil => simp [List.dropWhile]
  | cons c rest ih =>
    rw [List.dropWhile]
    cases hc : p c
    · exact Nat.le_refl _
    · exact Nat.le_trans ih (by simp)

theorem trim_length_le (l : List Char) : (trim l).length ≤ l.length := by
  calc (trim l).length ≤ (l.dropWhile isWS).length := trimRight_length_le _
    _ ≤ l.length := dropWhile_length_le _ _

theorem trimRight_head (l : List Char) (h : trimRight l ≠ []) :
    (trimRight l).headD 'x' = l.headD 'x' := by
  cases l with
  | nil => simp [trimRight] at h
  | cons c rest =>
    rw [trimRight] at h ⊢
    rcases hr : trimRight rest with _ | ⟨x, xs⟩
    · rw [hr] at h
      by_cases hc : isWS c = true
      · simp [hc] at h
      · simp [hc]
    · rfl

theorem trimRight_getLast (l : List Char) (h : trimRight l ≠ []) :
    isWS ((trimRight l).getLastD 'x') = false := by
  induction l with
  | nil => simp [trimRight] at h
  | cons c rest ih =>
    rw [trimRight] at h ⊢
    rcases hr : trimRight rest with _ | ⟨x, xs⟩
    · rw [hr] at h
      by_cases hc : isWS c = true
      · simp [hc] at h
      · simp [hc]
    · rw [hr] at ih
      simpa [List.getLastD_cons] using ih (by simp)

theorem dropWhile_head_not (l : List Char) (h : l.dropWhile isWS ≠ []) :
    isWS ((l.dropWhile isWS).headD 'x') = false := by
  induction l with
  | nil => simp [List.dropWhile] at h
  | cons c rest ih =>
    rw [List.dropWhile] at h ⊢
    cases hc : isWS c
    · simpa using hc
    · rw [hc] at h
      exact ih h

theorem trim_head (l : List Char) (h : trim l ≠ []) :
    isWS ((trim l).headD 'x') = false := by
  rw [trim] at h ⊢
  have hdw : l.dropWhile isWS ≠ [] := by
    intro hnil
    rw [hnil] at h
    exact h rfl
  rw [trimRight_head _ h]
  exact dropWhile_head_not l hdw

theorem trim_getLast (l : List Char) (h : trim l ≠ []) :
    isWS ((trim l).getLastD 'x') = false := by
  rw [trim] at h ⊢
  exact trimRight_getLast _ h

/-! ### Lemmas about the break-point scans -/

theorem scanSentence_bounds (text : List Char) (p m : Nat) :
    ∀ i b, scanSentence text p m i = some b → p < b ∧ b ≤ i + 1 := by
  intro i
  induction i with
  | zero => intro b hb; simp [scanSentence] at hb
  | succ k ih =>
    intro b hb
    rw [scanSentence] at hb
    by_cases hg : 2 * (k + 1) > 2 * p + m
    · rw [if_pos hg] at hb
      by_cases ht : (isSentenceEnd (text.getD (k + 1) ' ') && decide (k + 2 < text.length)
          && isWS (text.getD (k + 2) ' ')) = true
      · rw [if_pos ht] at hb
        have : k + 2 = b := by simpa using hb
        omega
      · rw [if_neg ht] at hb
        have := ih b hb
        omega
    · rw [if_neg hg] at hb
      simp at hb

theorem scanWordBound_bounds (text : List Char) (p m : Nat) :
    ∀ i b, scanWordBound text p m i = some b → p < b ∧ b ≤ i := by
  intro i
  induction i with
  | zero => intro b hb; simp [scanWordBound] at hb
  | succ k ih =>
    intro b hb
    rw [scanWordBound] at hb
    by_cases hg : 10 * (k + 1) > 10 * p + 7 * m
    · rw [if_pos hg] at hb
      by_cases ht : isWS (text.getD (k + 1) ' ') = true
      · rw [if_pos ht] at hb
        have : k + 1 = b := by simpa using hb
        omega
      · rw [if_neg ht] at hb
        have := ih b hb
        omega
    · rw [if_neg hg] at hb
      simp at hb

theorem bestBreakAt_gt (text : List Char) (m p : Nat) (hm : 1 ≤ m) :
    p < bestBreakAt text m p := by
  rw [bestBreakAt]
  rcases hs : scanSentence text p m (p + m) with _ | b
  · rcases hw : scanWordBound text p m (p + m) with _ | b
    · change p < p + m
      omega
    · exact (scanWordBound_bounds text p m _ b hw).1
  · exact (scanSentence_bounds text p m _ b hs).1

theorem bestBreakAt_le (text : List Char) (m p : Nat) :
    bestBreakAt text m p ≤ p + m + 1 := by
  rw [bestBreakAt]
  rcases hs : scanSentence text p m (p + m) with _ | b
  · rcases hw : scanWordBound text p m (p + m) with _ | b
    · change p + m ≤ p + m + 1
      omega
    · change b ≤ p + m + 1
      have := (scanWordBound_bounds text p m _ b hw).2
      omega
  · exact (scanSentence_bounds text p m _ b hs).2

theorem skipWS_ge (text : List Char) (p : Nat) : p ≤ skipWS text p :=
  Nat.le_add_right _ _

theorem nonWS_drop_wsRun (l : List Char) : nonWS (l.drop (wsRun l)) = nonWS l := by
  induction l with
  | nil => rfl
  | cons c rest ih =>
    rw [wsRun]
    by_cases h : isWS c = true
    · rw [if_pos h]
      rw [List.drop_succ_cons]
      rw [ih, nonWS_cons, if_pos h, List.nil_append]
    · rw [if_neg h, List.drop_zero]

theorem nonWS_drop_skipWS (text : List Char) (p : Nat) :
    nonWS (text.drop (skipWS text p)) = nonWS (text.drop p) := by
  rw [skipWS, ← List.drop_drop, nonWS_drop_wsRun]

/-! ### The main loop invariants of the chunker -/

theorem chunkAux_coverage (text : List Char) (m : Nat) (hm : 1 ≤ m) :
    ∀ fuel p, text.length - p < fuel →
      ((chunkAux text m fuel p).map nonWS).flatten = nonWS (text.drop p) := by
  intro fuel
  induction fuel with
  | zero => intro p hp; omega
  | succ f ih =>
    intro p hp
    simp only [chunkAux]
    by_cases hlt : p < text.length
    · rw [if_pos hlt]
      by_cases hend : text.length ≤ p + m
      · rw [if_pos hend]
        simp
      · rw [if_neg hend]
        have hbgt : p < bestBreakAt text m p := bestBreakAt_gt text m p hm
        have hskip : bestBreakAt text m p ≤ skipWS text (bestBreakAt text m p) :=
          skipWS_ge text _
        have hrec := ih (skipWS text (bestBreakAt text m p)) (by omega)
        have hsplit : nonWS (text.drop p) =
            nonWS ((text.drop p).take (bestBreakAt text m p - p)) ++
              nonWS (text.drop (bestBreakAt text m p)) := by
          have hpb : p + (bestBreakAt text m p - p) = bestBreakAt text m p := by omega
          calc nonWS (text.drop p)
              = nonWS ((text.drop p).take (bestBreakAt text m p - p) ++
                  (text.drop p).drop (bestBreakAt text m p - p)) := by
                rw [List.take_append_drop]
            _ = nonWS ((text.drop p).take (bestBreakAt text m p - p)) ++
                  nonWS ((text.drop p).drop (bestBreakAt text m p - p)) := nonWS_append _ _
            _ = nonWS ((text.drop p).take (bestBreakAt text m p - p)) ++
                  nonWS (text.drop (bestBreakAt text m p)) := by
                rw [List.drop_drop, hpb]
        rw [List.map_append, List.flatten_append, hrec, nonWS_drop_skipWS, hsplit]
        congr 1
        by_cases hc : 0 < (trim ((text.drop p).take (bestBreakAt text m p - p))).length
        · rw [if_pos hc]
          simp [nonWS_trim]
        · rw [if_neg hc]
          have hnil : trim ((text.drop p).take (bestBreakAt text m p - p)) = [] :=
            List.length_eq_zero.mp (by omega)
          have := nonWS_trim ((text.drop p).take (bestBreakAt text m p - p))
          rw [hnil] at this
          simpa using this.symm
    · rw [if_neg hlt]
      have hnil : text.drop p = [] := List.drop_eq_nil_of_le (by omega)
      simp [hnil, nonWS]

theorem chunkAux_length_le (text : List Char) (m : Nat) :
    ∀ fuel p c, c ∈ chunkAux text m fuel p → c.length ≤ m + 1 := by
  intro fuel
  induction fuel with
  | zero => intro p c hc; simp [chunkAux] at hc
  | succ f ih =>
    intro p c hc
    simp only [chunkAux] at hc
    by_cases hlt : p < text.length
    · rw [if_pos hlt] at hc
      by_cases hend : text.length ≤ p + m
      · rw [if_pos hend] at hc
        have : c = text.drop p := by simpa using hc
        subst this
        simp only [List.length_drop]
        omega
      · rw [if_neg hend] at hc
        rcases List.mem_append.mp hc with hpre | hrest
        · by_cases hlen : 0 < (trim ((text.drop p).take (bestBreakAt text m p - p))).length
          · rw [if_pos hlen] at hpre
            have heq : c = trim ((text.drop p).take (bestBreakAt text m p - p)) := by
              simpa using hpre
            subst heq
            have h1 := trim_length_le ((text.drop p).take (bestBreakAt text m p - p))
            have h2 : ((text.drop p).take (bestBreakAt text m p - p)).length ≤
                bestBreakAt text m p - p := by
              simp [List.length_take]
            have h3 := bestBreakAt_le text m p
            omega
          · rw [if_neg hlen] at hpre
            simp at hpre
        · exact ih _ c hrest
    · rw [if_neg hlt] at hc
      simp at hc

theorem chunkAux_ne_nil (text : List Char) (m : Nat) :
    ∀ fuel p c, c ∈ chunkAux text m fuel p → c ≠ [] := by
  intro fuel
  induction fuel with
  | zero => intro p c hc; simp [chunkAux] at hc
  | succ f ih =>
    intro p c hc
    simp only [chunkAux] at hc
    by_cases hlt : p < text.length
    · rw [if_pos hlt] at hc
      by_cases hend : text.length ≤ p + m
      · rw [if_pos hend] at hc
        have heq : c = text.drop p := by simpa using hc
        subst heq
        intro hnil
        have := congrArg List.length hnil
        simp only [List.length_drop, List.length_nil] at this
        omega
      · rw [if_neg hend] at hc
        rcases List.mem_append.mp hc with hpre | hrest
        · by_cases hlen : 0 < (trim ((text.drop p).take (bestBreakAt text m p - p))).length
          · rw [if_pos hlen] at hpre
            have heq : c = trim ((text.drop p).take (bestBreakAt text m p - p)) := by
              simpa using hpre
            subst heq
            intro hnil
            rw [hnil] at hlen
            simp at hlen
          · rw [if_neg hlen] at hpre
            simp at hpre
        · exact ih _ c hrest
    · rw [if_neg hlt] at hc
      simp at hc

theorem chunkAux_dropLast (text : List Char) (m : Nat) :
    ∀ fuel p c, c ∈ (chunkAux text m fuel p).dropLast →
      c ≠ [] ∧ isWS (c.headD 'x') = false ∧ isWS (c.getLastD 'x') = false := by
  intro fuel
  induction fuel with
  | zero => intro p c hc; simp [chunkAux] at hc
  | succ f ih =>
    intro p c hc
    simp only [chunkAux] at hc
    by_cases hlt : p < text.length
    · rw [if_pos hlt] at hc
      by_cases hend : text.length ≤ p + m
      · rw [if_pos hend] at hc
        simp at hc
      · rw [if_neg hend] at hc
        by_cases hlen : 0 < (trim ((text.drop p).take (bestBreakAt text m p - p))).length
        · rw [if_pos hlen] at hc
          rcases hrest : chunkAux text m f (skipWS text (bestBreakAt text m p)) with _ | ⟨r, rs⟩
          · rw [hrest] at hc
            simp at hc
          · rw [hrest] at hc
            rw [List.singleton_append, List.dropLast_cons₂] at hc
            rcases List.mem_cons.mp hc with heq | htail
            · subst heq
              have hne : trim ((text.drop p).take (bestBreakAt text m p - p)) ≠ [] := by
                intro hnil
                rw [hnil] at hlen
                simp at hlen
              exact ⟨hne, trim_head _ hne, trim_getLast _ hne⟩
            · have := ih (skipWS text (bestBreakAt text m p)) c
              rw [hrest] at this
              exact this htail
        · rw [if_neg hlen, List.nil_append] at hc
          exact ih _ c hc
    · rw [if_neg hlt] at hc
      simp at hc

theorem chunkAux_fuel_eq (text : List Char) (m : Nat) (hm : 1 ≤ m) :
    ∀ f₁ p f₂, text.length - p < f₁ → text.length - p < f₂ →
      chunkAux text m f₁ p = chunkAux text m f₂ p := by
  intro f₁
  induction f₁ with
  | zero => intro p f₂ h1 h2; omega
  | succ a ih =>
    intro p f₂ h1 h2
    obtain ⟨b, rfl⟩ : ∃ b, f₂ = b + 1 := ⟨f₂ - 1, by omega⟩
    simp only [chunkAux]
    by_cases hlt : p < text.length
    · rw [if_pos hlt, if_pos hlt]
      by_cases hend : text.length ≤ p + m
      · rw [if_pos hend, if_pos hend]
      · rw [if_neg hend, if_neg hend]
        congr 1
        have hbgt : p < bestBreakAt text m p := bestBreakAt_gt text m p hm
        have hskip : bestBreakAt text m p ≤ skipWS text (bestBreakAt text m p) :=
          skipWS_ge text _
        exact ih (skipWS text (bestBreakAt text m p)) b (by omega) (by omega)
    · rw [if_neg hlt, if_neg hlt]

theorem nonWS_joinSpace (L : List (List Char)) :
    nonWS (joinSpace L) = (L.map nonWS).flatten := by
  induction L with
  | nil => rfl
  | cons c rest ih =>
    cases rest with
    | nil => simp [joinSpace]
    | cons r rs =>
      simp only [joinSpace, nonWS_append, nonWS_cons, List.map_cons, List.flatten_cons] at ih ⊢
      rw [ih]
      simp [isWS]

/-- The maximal whitespace-free runs ("words") of a string. -/
def wordsOf (l : List Char) : List (List Char) :=
  (l.splitOnP isWS).filter (fun w => !List.isEmpty w)

/-! ### The chunker claims -/

/-- C1 (counterexample): with `maxChunkSize = 4`, the input `"a bc. d"` yields
the chunk `"a bc."` of length `5 > 4`, produced by the sentence-boundary cut
(which starts scanning at offset `maxChunkSize`, not `maxChunkSize - 1`, and
cuts after the terminator).  The over-long chunk consists of two words, each
of length at most `4`, so it is not a chunk containing a single
whitespace-delimited word longer than `maxChunkSize`, and the cut is at
offset `maxChunkSize + 1`, not a hard break at exactly `maxChunkSize`. -/
theorem chunk_size_bound_cex :
    chunkTextStrictly (String.toList "a bc. d") 4 =
      [String.toList "a bc.", String.toList "d"] ∧
    4 < (String.toList "a bc.").length ∧
    wordsOf (String.toList "a bc.") = [String.toList "a", String.toList "bc."] ∧
    (∀ w ∈ wordsOf (String.toList "a bc."), w.length ≤ 4) := by
  decide

/-- C1 (amended): for every input string and every positive `maxChunkSize`,
every chunk produced by `chunkTextStrictly` has length at most
`maxChunkSize + 1`.  The bound `maxChunkSize` itself can be exceeded, by
exactly one character, only by a sentence-boundary cut whose terminator sits
exactly `maxChunkSize` characters past the window start; a hard break cuts
at exactly `maxChunkSize`, so a chunk holding part of an over-long word
never exceeds `maxChunkSize`. -/
theorem chunk_size_bound_amended (text : List Char) (maxChunkSize : Nat)
    (_hm : 1 ≤ maxChunkSize) :
    ∀ c ∈ chunkTextStrictly text maxChunkSize, c.length ≤ maxChunkSize + 1 := by
  intro c hc
  exact chunkAux_length_le text maxChunkSize _ 0 c hc

theorem chunk_size_bound_amended_witness :
    1 ≤ 4 ∧ ∀ c ∈ chunkTextStrictly (String.toList "a bc. d") 4, c.length ≤ 4 + 1 :=
  ⟨by decide, chunk_size_bound_amended (String.toList "a bc. d") 4 (by decide)⟩

/-- C2: for every input string and every `maxChunkSize ≥ 1`, re-joining the
chunks produced by `chunkTextStrictly` with single spaces reconstructs the
input text up to whitespace: the sequences of non-whitespace characters
coincide, so no non-whitespace character is lost or duplicated and their
order is preserved. -/
theorem chunk_coverage (text : List Char) (maxChunkSize : Nat) (hm : 1 ≤ maxChunkSize) :
    nonWS (joinSpace (chunkTextStrictly text maxChunkSize)) = nonWS text := by
  rw [nonWS_joinSpace, chunkTextStrictly,
    chunkAux_coverage text maxChunkSize hm (text.length + 1) 0 (by omega)]
  simp

theorem chunk_coverage_witness :
    1 ≤ 3 ∧ nonWS (joinSpace (chunkTextStrictly (String.toList "  ab cd.  ef g  ") 3)) =
      nonWS (String.toList "  ab cd.  ef g  ") :=
  ⟨by decide, chunk_coverage (String.toList "  ab cd.  ef g  ") 3 (by decide)⟩

/-- C8 (counterexample): the final (remainder) chunk is pushed verbatim,
without trimming and without the emptiness check.  On the all-whitespace
input `" "` the chunker emits the chunk `" "`, which is empty after trimming;
on `" a"` it emits `" a"`, which begins with a whitespace character. -/
theorem chunk_trim_cex :
    chunkTextStrictly [' '] 400 = [[' ']] ∧
    trim [' '] = [] ∧
    chunkTextStrictly (String.toList " a") 400 = [String.toList " a"] ∧
    isWS ((String.toList " a").headD 'x') = true := by
  decide

/-- C8 (amended): every emitted chunk is a non-empty string, and every chunk
except possibly the last is non-empty after trimming, begins with a
non-whitespace character and ends with a non-whitespace character
(empty-after-trim windows are dropped).  The final chunk is the remainder
emitted verbatim without trimming: it may begin with whitespace (only when
it is the sole chunk), end with whitespace, or be whitespace-only. -/
theorem chunk_trim_amended (text : List Char) (maxChunkSize : Nat)
    (_hm : 1 ≤ maxChunkSize) :
    (∀ c ∈ chunkTextStrictly text maxChunkSize, c ≠ []) ∧
    ∀ c ∈ (chunkTextStrictly text maxChunkSize).dropLast,
      c ≠ [] ∧ isWS (c.headD 'x') = false ∧ isWS (c.getLastD 'x') = false :=
  ⟨fun c hc => chunkAux_ne_nil text maxChunkSize _ 0 c hc,
    fun c hc => chunkAux_dropLast text maxChunkSize _ 0 c hc⟩

theorem chunk_trim_amended_witness :
    1 ≤ 3 ∧
    ((∀ c ∈ chunkTextStrictly (String.toList "ab cd  e ") 3, c ≠ []) ∧
    ∀ c ∈ (chunkTextStrictly (String.toList "ab cd  e ") 3).dropLast,
      c ≠ [] ∧ isWS (c.headD 'x') = false ∧ isWS (c.getLastD 'x') = false) :=
  ⟨by decide, chunk_trim_amended (String.toList "ab cd  e ") 3 (by decide)⟩

/-- C10: for `maxChunkSize ≥ 1` the chunker terminates: the selected break
point is always strictly past the current position, so each loop iteration
strictly advances `position`; consequently the loop runs at most
`text.length` times and any fuel of at least `text.length + 1` loop-guard
evaluations computes the same result as `chunkTextStrictly`. -/
theorem chunker_terminates (text : List Char) (maxChunkSize : Nat)
    (hm : 1 ≤ maxChunkSize) :
    (∀ position, position < bestBreakAt text maxChunkSize position) ∧
    ∀ fuel, text.length + 1 ≤ fuel →
      chunkAux text maxChunkSize fuel 0 = chunkTextStrictly text maxChunkSize := by
  constructor
  · intro position
    exact bestBreakAt_gt text maxChunkSize position hm
  · intro fuel hf
    rw [chunkTextStrictly]
    exact chunkAux_fuel_eq text maxChunkSize hm fuel 0 (text.length + 1) (by omega) (by omega)

theorem chunker_terminates_witness :
    1 ≤ 2 ∧
    ((∀ position, position < bestBreakAt (String.toList "ab c") 2 position) ∧
    ∀ fuel, (String.toList "ab c").length + 1 ≤ fuel →
      chunkAux (String.toList "ab c") 2 fuel 0 = chunkTextStrictly (String.toList "ab c") 2) :=
  ⟨by decide, chunker_terminates (String.toList "ab c") 2 (by decide)⟩

/-! ### The WAV assembly claims -/

theorem flatMap_writeSample_length (l : List ℚ) :
    (l.flatMap writeSample).length = 2 * l.length := by
  induction l with
  | nil => rfl
  | cons a rest ih =>
    rw [List.flatMap_cons, List.length_append, ih, List.length_cons]
    rw [show (writeSample a).length = 2 from rfl]
    omega

theorem wavBytes_shape (M : List ℚ) (r : Nat) :
    wavBytes M r =
      82 :: 73 :: 70 :: 70 ::
      ((36 + M.length * 2) % 256) :: ((36 + M.length * 2) / 256 % 256) ::
        ((36 + M.length * 2) / 65536 % 256) :: ((36 + M.length * 2) / 16777216 % 256) ::
      87 :: 65 :: 86 :: 69 :: 102 :: 109 :: 116 :: 32 ::
      16 :: 0 :: 0 :: 0 :: 1 :: 0 :: 1 :: 0 ::
      (r % 256) :: (r / 256 % 256) :: (r / 65536 % 256) :: (r / 16777216 % 256) ::
      (r * 2 % 256) :: (r * 2 / 256 % 256) :: (r * 2 / 65536 % 256) ::
        (r * 2 / 16777216 % 256) ::
      2 :: 0 :: 16 :: 0 :: 100 :: 97 :: 116 :: 97 ::
      (M.length * 2 % 256) :: (M.length * 2 / 256 % 256) :: (M.length * 2 / 65536 % 256) ::
        (M.length * 2 / 16777216 % 256) ::
      M.flatMap writeSample := rfl

/-- C4: for every non-empty segment list whose total size and sample rate
keep the four 32-bit header writes in range (`36 + 2·N < 2^32` and
`sampleRate · 2 < 2^32` — outside those bounds Node's `writeUInt32LE`
throws and the handler returns a failure instead), the assembled WAV has
byte length `44 + 2·N`; its header declares PCM format tag 1, one channel
and 16 bits per sample; the RIFF size field at offset 4 is `36 + 2·N` and
the data size field at offset 40 is `2·N`, where `N` is the total sample
count; the declared sample rate is the first segment's `sampling_rate`
regardless of the other segments' rates; and the payload is the segments'
samples, quantized, concatenated in input order. -/
theorem wav_layout (audioData : List AudioChunkData)
    (hne : audioData ≠ [])
    (hsize : 36 + 2 * (audioData.flatMap AudioChunkData.audio).length < 4294967296)
    (hrate2 : (audioData.headD ⟨[], 0⟩).sampling_rate * 2 < 4294967296) :
    ∃ wav, concatenateAudioBuffers audioData = Except.ok wav ∧
      wav.length = 44 + 2 * (audioData.flatMap AudioChunkData.audio).length ∧
      readU32 wav 4 = 36 + 2 * (audioData.flatMap AudioChunkData.audio).length ∧
      readU16 wav 20 = 1 ∧
      readU16 wav 22 = 1 ∧
      readU16 wav 34 = 16 ∧
      readU32 wav 24 = (audioData.headD ⟨[], 0⟩).sampling_rate ∧
      readU32 wav 40 = 2 * (audioData.flatMap AudioChunkData.audio).length ∧
      wav.drop 44 = (audioData.flatMap AudioChunkData.audio).flatMap writeSample := by
  refine ⟨wavBytes (audioData.flatMap AudioChunkData.audio)
      (audioData.headD ⟨[], 0⟩).sampling_rate, ?_, ?_, ?_, ?_, ?_, ?_, ?_, ?_, ?_⟩
  · have hlen : ¬audioData.length = 0 := by
      simpa [List.length_eq_zero] using hne
    have hcond : 36 + (audioData.flatMap AudioChunkData.audio).length * 2 < 4294967296 ∧
        (audioData.headD ⟨[], 0⟩).sampling_rate < 4294967296 ∧
        (audioData.headD ⟨[], 0⟩).sampling_rate * 2 < 4294967296 ∧
        (audioData.flatMap AudioChunkData.audio).length * 2 < 4294967296 :=
      ⟨by omega, by omega, hrate2, by omega⟩
    simp only [concatenateAudioBuffers, if_neg hlen, createWavBuffer, if_pos hcond]
  · rw [wavBytes_shape]
    simp only [List.length_cons, flatMap_writeSample_length]
    omega
  · have h : readU32 (wavBytes (audioData.flatMap AudioChunkData.audio)
        (audioData.headD ⟨[], 0⟩).sampling_rate) 4 =
        (36 + (audioData.flatMap AudioChunkData.audio).length * 2) % 256 +
        256 * ((36 + (audioData.flatMap AudioChunkData.audio).length * 2) / 256 % 256) +
        65536 * ((36 + (audioData.flatMap AudioChunkData.audio).length * 2) / 65536 % 256) +
        16777216 * ((36 + (audioData.flatMap AudioChunkData.audio).length * 2) / 16777216 % 256) := by
      rw [wavBytes_shape]
      rfl
    rw [h]
    omega
  · rw [wavBytes_shape]
    rfl
  · rw [wavBytes_shape]
    rfl
  · rw [wavBytes_shape]
    rfl
  · have h : readU32 (wavBytes (audioData.flatMap AudioChunkData.audio)
        (audioData.headD ⟨[], 0⟩).sampling_rate) 24 =
        (audioData.headD ⟨[], 0⟩).sampling_rate % 256 +
        256 * ((audioData.headD ⟨[], 0⟩).sampling_rate / 256 % 256) +
        65536 * ((audioData.headD ⟨[], 0⟩).sampling_rate / 65536 % 256) +
        16777216 * ((audioData.headD ⟨[], 0⟩).sampling_rate / 16777216 % 256) := by
      rw [wavBytes_shape]
      rfl
    rw [h]
    omega
  · have h : readU32 (wavBytes (audioData.flatMap AudioChunkData.audio)
        (audioData.headD ⟨[], 0⟩).sampling_rate) 40 =
        (audioData.flatMap AudioChunkData.audio).length * 2 % 256 +
        256 * ((audioData.flatMap AudioChunkData.audio).length * 2 / 256 % 256) +
        65536 * ((audioData.flatMap AudioChunkData.audio).length * 2 / 65536 % 256) +
        16777216 * ((audioData.flatMap AudioChunkData.audio).length * 2 / 16777216 % 256) := by
      rw [wavBytes_shape]
      rfl
    rw [h]
    omega
  · rw [wavBytes_shape]
    rfl

theorem wav_layout_witness :
    (([⟨[1/2], 24000⟩, ⟨[-1/2, 1], 8000⟩] : List AudioChunkData) ≠ []) ∧
    (∃ wav, concatenateAudioBuffers [⟨[1/2], 24000⟩, ⟨[-1/2, 1], 8000⟩] = Except.ok wav ∧
      wav.length = 44 + 2 * (([⟨[1/2], 24000⟩, ⟨[-1/2, 1], 8000⟩] :
        List AudioChunkData).flatMap AudioChunkData.audio).length ∧
      readU32 wav 4 = 36 + 2 * (([⟨[1/2], 24000⟩, ⟨[-1/2, 1], 8000⟩] :
        List AudioChunkData).flatMap AudioChunkData.audio).length ∧
      readU16 wav 20 = 1 ∧
      readU16 wav 22 = 1 ∧
      readU16 wav 34 = 16 ∧
      readU32 wav 24 = (([⟨[1/2], 24000⟩, ⟨[-1/2, 1], 8000⟩] :
        List AudioChunkData).headD ⟨[], 0⟩).sampling_rate ∧
      readU32 wav 40 = 2 * (([⟨[1/2], 24000⟩, ⟨[-1/2, 1], 8000⟩] :
        List AudioChunkData).flatMap AudioChunkData.audio).length ∧
      wav.drop 44 = (([⟨[1/2], 24000⟩, ⟨[-1/2, 1], 8000⟩] :
        List AudioChunkData).flatMap AudioChunkData.audio).flatMap writeSample) :=
  ⟨List.cons_ne_nil _ _,
    wav_layout [⟨[1/2], 24000⟩, ⟨[-1/2, 1], 8000⟩] (List.cons_ne_nil _ _)
      (by decide) (by decide)⟩

/-- C6: handing the audio assembly zero segments yields the
`"No audio data provided"` error (the spec's `NoAudioData`): no WAV container
is built and nothing is written — the handler returns the failure before
constructing any buffer or touching the output path. -/
theorem no_audio_data_error :
    concatenateAudioBuffers [] = Except.error "No audio data provided" := rfl

/-! ### The sample quantization claim -/

/-- Modelled from the spec's words, for refinement comparison only (the code
does not round): `int16 = round(clamp(sample, -1, 1) * 32767)`. -/
def quantizeSpec (x : ℚ) : Int :=
  round (clampSample x * 32767)

/-- C5 (counterexample): at the sample `1/2` the code stores the 16-bit value
`16383` — `0.5 * 32767 = 16383.5` is truncated toward zero by the byte
stores — while the spec's formula `round(clamp(sample, -1, 1) * 32767)`
gives `16384`. -/
theorem quantize_round_cex :
    decodeS16 (writeSample (1 / 2)) = 16383 ∧
    quantizeSpec (1 / 2) = 16384 ∧
    decodeS16 (writeSample (1 / 2)) ≠ quantizeSpec (1 / 2) := by
  have hclamp : clampSample (1 / 2 : ℚ) = 1 / 2 := by
    rw [clampSample, min_eq_right (by norm_num), max_eq_right (by norm_num)]
  have htr : truncTowardZero (clampSample (1 / 2 : ℚ) * 32767) = 16383 := by
    rw [hclamp, truncTowardZero, if_pos (by norm_num)]
    rw [Int.floor_eq_iff]
    constructor <;> norm_num
  have hdec : decodeS16 (writeSample (1 / 2)) = 16383 := by
    simp only [writeSample, int16leBytes]
    rw [htr]
    decide
  have hround : quantizeSpec (1 / 2) = 16384 := by
    rw [quantizeSpec, hclamp, round_eq]
    rw [show (1 : ℚ) / 2 * 32767 + 1 / 2 = 16384 from by norm_num]
    rw [Int.floor_eq_iff]
    constructor <;> norm_num
  exact ⟨hdec, hround, by rw [hdec, hround]; decide⟩

theorem truncTowardZero_bounds (q : ℚ) (n : Nat) (h1 : -(n : ℚ) ≤ q) (h2 : q ≤ n) :
    -(n : Int) ≤ truncTowardZero q ∧ truncTowardZero q ≤ n := by
  rw [truncTowardZero]
  by_cases h : 0 ≤ q
  · rw [if_pos h]
    have hnn : (0 : Int) ≤ ⌊q⌋ := Int.floor_nonneg.mpr h
    have hup : ⌊q⌋ ≤ ⌊(n : ℚ)⌋ := Int.floor_le_floor h2
    have hn : ⌊(n : ℚ)⌋ = (n : Int) := Int.floor_natCast n
    omega
  · rw [if_neg h]
    push_neg at h
    have hnn : (0 : Int) ≤ ⌊-q⌋ := Int.floor_nonneg.mpr (by linarith)
    have hup : ⌊-q⌋ ≤ ⌊(n : ℚ)⌋ := Int.floor_le_floor (by linarith)
    have hn : ⌊(n : ℚ)⌋ = (n : Int) := Int.floor_natCast n
    omega

/-- C5 (amended): the 16-bit value written into the WAV payload for a sample
`x` is `truncTowardZero(clamp(x, -1, 1) * 32767)` — the clamped, scaled
sample with its fractional part discarded toward zero (not rounded to the
nearest integer) — stored as a little-endian two's-complement 16-bit value;
it always lies in `[-32767, 32767]`. -/
theorem quantize_trunc_amended (x : ℚ) :
    decodeS16 (writeSample x) = truncTowardZero (clampSample x * 32767) ∧
    -32767 ≤ truncTowardZero (clampSample x * 32767) ∧
    truncTowardZero (clampSample x * 32767) ≤ 32767 := by
  have hc1 : -1 ≤ clampSample x := le_max_left _ _
  have hc2 : clampSample x ≤ 1 := max_le (by norm_num) (min_le_left _ _)
  have hb1 : -((32767 : Nat) : ℚ) ≤ clampSample x * 32767 := by
    push_cast
    nlinarith
  have hb2 : clampSample x * 32767 ≤ ((32767 : Nat) : ℚ) := by
    push_cast
    nlinarith
  obtain ⟨ht1, ht2⟩ := truncTowardZero_bounds (clampSample x * 32767) 32767 hb1 hb2
  refine ⟨?_, by omega, by omega⟩
  rw [writeSample]
  simp only [int16leBytes, decodeS16]
  split <;> omega

/-! ### The orchestration claims -/

theorem genLoop_identity {α : Type} (inputLanguage : SupportedLanguages)
    (translateFn : SupportedLanguages → SupportedLanguages → α → α) (total : Nat) :
    ∀ (chunks : List α) (i : Nat),
      (genLoop inputLanguage inputLanguage translateFn total chunks i).events =
        (List.range' i chunks.length).map
          (fun j : Nat => (Status.tts, 70 + ((j : ℚ) / ((j : ℚ) + 1)) * 15)) ∧
      (genLoop inputLanguage inputLanguage translateFn total chunks i).synthInputs = chunks ∧
      (genLoop inputLanguage inputLanguage translateFn total chunks i).translatorCalls = [] := by
  intro chunks
  induction chunks with
  | nil => intro i; simp [genLoop]
  | cons c rest ih =>
    intro i
    obtain ⟨hev, hsyn, hcall⟩ := ih (i + 1)
    simp only [genLoop, ne_eq, not_true_eq_false, if_false, List.length_cons,
      List.range'_succ, List.map_cons]
    refine ⟨?_, ?_, ?_⟩
    · rw [hev]
      simp
    · rw [hsyn]
    · rw [hcall]
      simp

/-- C7: whenever the input and output languages coincide, translation is
skipped for every chunk: the external translator receives no calls, no
`translating`-status progress event is emitted anywhere in the run, and the
chunk texts reach the synthesizer unchanged. -/
theorem identity_language_skip {α : Type} (inputLanguage outputLanguage : SupportedLanguages)
    (translateFn : SupportedLanguages → SupportedLanguages → α → α) (chunks : List α)
    (h : inputLanguage = outputLanguage) :
    translatorCallList inputLanguage outputLanguage translateFn chunks = [] ∧
    (∀ e ∈ generateAudiobookTrace inputLanguage outputLanguage translateFn chunks,
      e.1 ≠ Status.translating) ∧
    synthesizerInputs inputLanguage outputLanguage translateFn chunks = chunks := by
  subst h
  obtain ⟨hev, hsyn, hcall⟩ :=
    genLoop_identity inputLanguage translateFn chunks.length chunks 0
  refine ⟨hcall, ?_, hsyn⟩
  intro e he
  rw [generateAudiobookTrace, hev] at he
  simp only [List.mem_cons, List.mem_append, List.mem_map, List.not_mem_nil,
    or_false] at he
  rcases he with rfl | rfl | ⟨j, hj, rfl⟩ | rfl | rfl <;> simp

theorem identity_language_skip_witness :
    SupportedLanguages.English = SupportedLanguages.English ∧
    (translatorCallList SupportedLanguages.English SupportedLanguages.English
      (fun _ _ x => x) [(), ()] = [] ∧
    (∀ e ∈ generateAudiobookTrace SupportedLanguages.English SupportedLanguages.English
      (fun _ _ x => x) [(), ()], e.1 ≠ Status.translating) ∧
    synthesizerInputs SupportedLanguages.English SupportedLanguages.English
      (fun _ _ x => x) [(), ()] = [(), ()]) :=
  ⟨rfl, identity_language_skip SupportedLanguages.English SupportedLanguages.English
    (fun _ _ x => x) [(), ()] rfl⟩

theorem eventVal_mono (j k : Nat) (hjk : j ≤ k) :
    70 + ((j : ℚ) / ((j : ℚ) + 1)) * 15 ≤ 70 + ((k : ℚ) / ((k : ℚ) + 1)) * 15 := by
  have hj : (0 : ℚ) < (j : ℚ) + 1 := by positivity
  have hk : (0 : ℚ) < (k : ℚ) + 1 := by positivity
  have hjk' : (j : ℚ) ≤ (k : ℚ) := by exact_mod_cast hjk
  have hdiv : (j : ℚ) / ((j : ℚ) + 1) ≤ (k : ℚ) / ((k : ℚ) + 1) := by
    rw [div_le_div_iff₀ hj hk]
    nlinarith
  nlinarith

theorem eventVal_bounds (j : Nat) :
    70 ≤ 70 + ((j : ℚ) / ((j : ℚ) + 1)) * 15 ∧
    70 + ((j : ℚ) / ((j : ℚ) + 1)) * 15 ≤ 85 := by
  have hj : (0 : ℚ) < (j : ℚ) + 1 := by positivity
  have h0 : (0 : ℚ) ≤ (j : ℚ) / ((j : ℚ) + 1) := by positivity
  have h1 : (j : ℚ) / ((j : ℚ) + 1) ≤ 1 := by
    rw [div_le_one hj]
    linarith [Nat.cast_nonneg (α := ℚ) j]
  constructor <;> nlinarith

theorem chain'_le_map_range' (e : Nat → ℚ) (hmono : ∀ j, e j ≤ e (j + 1)) :
    ∀ n i, List.Chain' (· ≤ ·) ((List.range' i n).map e) := by
  intro n
  induction n with
  | zero => intro i; simp
  | succ k ih =>
    intro i
    rw [List.range'_succ, List.map_cons]
    cases k with
    | zero => simp
    | succ k' =>
      rw [List.chain'_cons']
      refine ⟨?_, ih (i + 1)⟩
      intro h hh
      rw [List.range'_succ, List.map_cons, List.head?_cons] at hh
      obtain rfl : e (i + 1) = h := by simpa using hh
      exact hmono i

/-- C3 (amended): in every successful run the final emitted `percentComplete`
is exactly `100`; and when translation is skipped (`sourceLanguage =
targetLanguage`) the emitted sequence is monotonically non-decreasing.  With
translation active the sequence need not be monotone (see the
counterexample): the `translating` band `60 + 15·i/n` of one chunk can fall
below the `tts` band value `70 + 15·i/(i+1)` of the previous chunk. -/
theorem progress_amended {α : Type} (inputLanguage outputLanguage : SupportedLanguages)
    (translateFn : SupportedLanguages → SupportedLanguages → α → α) (chunks : List α) :
    ((generateAudiobookTrace inputLanguage outputLanguage translateFn chunks).map
      Prod.snd).getLast? = some 100 ∧
    (inputLanguage = outputLanguage →
      List.Chain' (· ≤ ·)
        ((generateAudiobookTrace inputLanguage outputLanguage translateFn chunks).map
          Prod.snd)) := by
  constructor
  · have hre : ((generateAudiobookTrace inputLanguage outputLanguage translateFn chunks).map
        Prod.snd) =
        ((10 : ℚ) :: 60 ::
          (((genLoop inputLanguage outputLanguage translateFn chunks.length chunks 0).events.map
            Prod.snd) ++ [95])) ++ [100] := by
      simp [generateAudiobookTrace]
    rw [hre, List.getLast?_concat]
  · intro h
    subst h
    obtain ⟨hev, -, -⟩ :=
      genLoop_identity inputLanguage translateFn chunks.length chunks 0
    have hre : ((generateAudiobookTrace inputLanguage inputLanguage translateFn chunks).map
        Prod.snd) =
        (10 : ℚ) :: 60 ::
          (((List.range' 0 chunks.length).map
            (fun j : Nat => 70 + ((j : ℚ) / ((j : ℚ) + 1)) * 15)) ++ [95, 100]) := by
      rw [generateAudiobookTrace, hev]
      simp [Function.comp]
    rw [hre]
    rw [List.chain'_cons']
    constructor
    · intro y hy
      obtain rfl : (60 : ℚ) = y := by simpa using hy
      norm_num
    rw [List.chain'_cons']
    constructor
    · intro y hy
      have hmem := List.mem_of_mem_head? hy
      rcases List.mem_append.mp hmem with hB | hC
      · obtain ⟨j, -, rfl⟩ := List.mem_map.mp hB
        linarith [(eventVal_bounds j).1]
      · have : y = 95 ∨ y = 100 := by simpa using hC
        rcases this with rfl | rfl <;> norm_num
    rw [List.chain'_append]
    refine ⟨chain'_le_map_range' _ (fun j => eventVal_mono j (j + 1) (by omega)) _ _, ?_, ?_⟩
    · norm_num [List.chain'_cons, List.chain'_singleton]
    · intro x hx y hy
      have hxm := List.mem_of_mem_getLast? hx
      obtain ⟨j, -, rfl⟩ := List.mem_map.mp hxm
      obtain rfl : (95 : ℚ) = y := by simpa using hy
      linarith [(eventVal_bounds j).2]

theorem progress_amended_witness :
    (((generateAudiobookTrace SupportedLanguages.English SupportedLanguages.English
      (fun _ _ x => x) [(), (), ()]).map Prod.snd).getLast? = some 100) ∧
    List.Chain' (· ≤ ·)
      ((generateAudiobookTrace SupportedLanguages.English SupportedLanguages.English
        (fun _ _ x => x) [(), (), ()]).map Prod.snd) :=
  ⟨(progress_amended SupportedLanguages.English SupportedLanguages.English
      (fun _ _ x => x) [(), (), ()]).1,
    (progress_amended SupportedLanguages.English SupportedLanguages.English
      (fun _ _ x => x) [(), (), ()]).2 rfl⟩

/-- C3 (counterexample): a successful translation-active run with two chunks
emits the progress sequence `[10, 60, 60, 70, 67.5, 77.5, 95, 100]` — the
`translating` event of the second chunk (`60 + (1/2)·15 = 67.5`) comes right
after the first chunk's `tts` event (`70`), so the sequence of
`percentComplete` values is not monotonically non-decreasing even though the
run succeeds and still ends at exactly `100`. -/
theorem progress_monotone_cex :
    ¬ List.Chain' (· ≤ ·)
      ((generateAudiobookTrace SupportedLanguages.English SupportedLanguages.Spanish
        (fun _ _ x => x) [(), ()]).map Prod.snd) := by
  intro hch
  have htrace : ((generateAudiobookTrace SupportedLanguages.English SupportedLanguages.Spanish
      (fun _ _ x => x) [(), ()]).map Prod.snd) =
      [10, 60, 60, 70, 135 / 2, 155 / 2, 95, 100] := by
    have hne : SupportedLanguages.English ≠ SupportedLanguages.Spanish := by decide
    norm_num [generateAudiobookTrace, genLoop, if_pos hne]
  rw [htrace, List.chain'_cons, List.chain'_cons, List.chain'_cons, List.chain'_cons] at hch
  have h70 : (70 : ℚ) ≤ 135 / 2 := hch.2.2.2.1
  norm_num at h70

/-! ### The crop-region claim -/

/-- C9: whenever the two crop margins, in rendered pixel units (source
margins scaled by the rendering factor `2`), meet or exceed the rendered
page height, the computed extract height is non-positive and the crop step
fails with the invalid-crop-region error rather than silently producing a
zero- or negative-height crop; zero margins are always accepted (for any
actual image, i.e. one with positive dimensions). -/
theorem crop_region_check (cropTop cropBottom imageWidth imageHeight : Nat) :
    (imageHeight ≤ 2 * cropTop + 2 * cropBottom →
      cropRenderedPage cropTop cropBottom imageWidth imageHeight =
        Except.error "InvalidCropRegion") ∧
    (1 ≤ imageWidth → 1 ≤ imageHeight →
      cropRenderedPage 0 0 imageWidth imageHeight = Except.ok ()) := by
  constructor
  · intro h
    simp only [cropRenderedPage]
    rw [if_neg]
    simp only [sharpExtractOk, Bool.and_eq_true, decide_eq_true_eq]
    intro hcontra
    omega
  · intro hw hh
    simp only [cropRenderedPage]
    rw [if_pos]
    simp only [sharpExtractOk, Bool.and_eq_true, decide_eq_true_eq]
    omega

theorem crop_region_check_witness :
    (9 ≤ 2 * 3 + 2 * 2 ∧
      cropRenderedPage 3 2 5 9 = Except.error "InvalidCropRegion") ∧
    (1 ≤ 5 ∧ 1 ≤ 9 ∧ cropRenderedPage 0 0 5 9 = Except.ok ()) :=
  ⟨⟨by omega, (crop_region_check 3 2 5 9).1 (by omega)⟩,
    ⟨by omega, by omega, (crop_region_check 0 0 5 9).2 (by omega) (by omega)⟩⟩

end LibreLyre
